import Mathlib

/-!
Verification of the core logic of `apolloveritas` (`ldap_directory.py`):
the scope filter (`remove_excluded_users`, `remove_users_from_excluded_ou`,
`remove_excluded_groups`, `remove_groups_from_excluded_ou`) and the nested
membership flattener (`objectify_members`, `get_nested_member_users`).

The Python code is shallowly embedded: directory objects become structures,
the cached directory becomes an explicit lookup structure, the `while`/`for`
loops of `get_nested_member_users` become a fuel-indexed step function whose
states mirror the Python control points (`none` = the fuel ran out, i.e. the
loop is still running), and a raised `ValueError` becomes `Except.error`.
-/

/-- Python `a in b` on strings: `a` occurs as a contiguous substring of `b`.
`listStarts a b` is `b.startswith(a)` on character lists. -/
def listStarts : List Char → List Char → Bool
  | [], _ => true
  | _ :: _, [] => false
  | x :: xs, y :: ys => x == y && listStarts xs ys

/-- Scan helper for `strIn`: does `a` start at some position of `b`? -/
def listSub (a : List Char) : List Char → Bool
  | [] => listStarts a []
  | y :: ys => listStarts a (y :: ys) || listSub a ys

/-- Python `a in b` for strings (substring containment). -/
def strIn (a b : String) : Bool := listSub a.data b.data

/-- The fields of `LdapUser` that the scope filter reads
(`cn`, `sAMAccountName`, `parent_ou`, `userAccountControl`). -/
structure LdapUser where
  cn : String
  sAMAccountName : String
  parent_ou : String
  userAccountControl : Nat
deriving DecidableEq, Repr

/-- The fields of `LdapGroup` that the scope filter reads. -/
structure LdapGroup where
  cn : String
  sAMAccountName : String
  parent_ou : String
deriving DecidableEq, Repr

/-- The exclusion/inclusion configuration an `LdapDirectory` instance carries
(loaded from `ldap_exclusions.json` / `ldap_sync_targets.json` in
`LdapDirectory.__init__`). -/
structure Policy where
  excludedOrganizationalUnits : List String
  excludedUsers : List String
  excludedGroups : List String
  includedOrganizationalUnits : List String
  includedUsers : List String
  includedGroups : List String
deriving DecidableEq, Repr

/-- The loop body condition of `remove_users_from_excluded_ou`: the `exclude`
flag is set iff some excluded OU is a substring (Python `in`) of the user's
`parent_ou` while `user.parent_ou` is not a member of the included OU list. -/
def user_ou_exclude (p : Policy) (u : LdapUser) : Bool :=
  p.excludedOrganizationalUnits.any fun ou =>
    strIn ou u.parent_ou && !(p.includedOrganizationalUnits.contains u.parent_ou)

/-- `LdapDirectory.remove_users_from_excluded_ou`: keeps the users whose
`exclude` flag stays `False`. -/
def remove_users_from_excluded_ou (p : Policy) (users : List LdapUser) : List LdapUser :=
  users.filter fun u => !(user_ou_exclude p u)

/-- The retention condition of the first loop of
`LdapDirectory.remove_excluded_users`: `cn` and `sAMAccountName` are outside
`excludedUsers` and `userAccountControl != 514` (514 = disabled account). -/
def user_id_keep (p : Policy) (u : LdapUser) : Bool :=
  !(p.excludedUsers.contains u.cn) && !(p.excludedUsers.contains u.sAMAccountName)
    && u.userAccountControl != 514

/-- `LdapDirectory.remove_excluded_users`: identifier/disabled filter followed
by `remove_users_from_excluded_ou`. -/
def remove_excluded_users (p : Policy) (users : List LdapUser) : List LdapUser :=
  remove_users_from_excluded_ou p (users.filter (user_id_keep p))

/-- The loop body condition of `remove_groups_from_excluded_ou`: note that,
unlike the user variant, the membership test against
`includedOrganizationalUnits` is applied to the excluded entry `ou` itself,
not to `group.parent_ou` (this mirrors line 371 of the source). -/
def group_ou_exclude (p : Policy) (g : LdapGroup) : Bool :=
  p.excludedOrganizationalUnits.any fun ou =>
    strIn ou g.parent_ou && !(p.includedOrganizationalUnits.contains ou)

/-- `LdapDirectory.remove_groups_from_excluded_ou`. -/
def remove_groups_from_excluded_ou (p : Policy) (groups : List LdapGroup) : List LdapGroup :=
  groups.filter fun g => !(group_ou_exclude p g)

/-- The retention condition of the first loop of
`LdapDirectory.remove_excluded_groups`. -/
def group_id_keep (p : Policy) (g : LdapGroup) : Bool :=
  !(p.excludedGroups.contains g.cn) && !(p.excludedGroups.contains g.sAMAccountName)

/-- `LdapDirectory.remove_excluded_groups`: identifier filter followed by
`remove_groups_from_excluded_ou`. -/
def remove_excluded_groups (p : Policy) (groups : List LdapGroup) : List LdapGroup :=
  remove_groups_from_excluded_ou p (groups.filter (group_id_keep p))

/-!  ## The membership flattener  -/

/-- A typed directory object as produced by `objectify_members`: an
`LdapUser` or an `LdapGroup` carrying its `members` attribute.  Objects are
identified by their distinguished name; in the cache every DN maps to one
object, so value equality coincides with Python object identity here. -/
inductive Entity where
  | user (dn : String)
  | group (dn : String) (members : List String)
deriving DecidableEq, Repr

/-- Python `type(member) == LdapGroup`. -/
def Entity.isGroup : Entity → Bool
  | .group _ _ => true
  | .user _ => false

/-- The cached directory: `self.groups` as (distinguishedName, member DNs)
pairs and `self.all_users` as user DNs. -/
structure Directory where
  groups : List (String × List String)
  users : List String
deriving DecidableEq, Repr

/-- `LdapDirectory.get_cached_group_by_dn`: first cached group with that DN,
`none` models the raised `ValueError`. -/
def resolveGroup (d : Directory) (dn : String) : Option (List String) :=
  (d.groups.find? fun p => p.1 == dn).map fun p => p.2

/-- The body of the `objectify_members` loop for one DN: try
`get_cached_group_by_dn`, then `get_cached_user_by_dn`; `none` models the
re-raised `ValueError` when both fail. -/
def resolveEntity (d : Directory) (dn : String) : Option Entity :=
  match resolveGroup d dn with
  | some ms => some (.group dn ms)
  | none => if d.users.contains dn then some (.user dn) else none

/-- `LdapDirectory.objectify_members`: resolves each DN in order, raising
(`Except.error`) at the first DN that is neither a cached group nor a cached
user. -/
def objectify_members (d : Directory) : List String → Except Unit (List Entity)
  | [] => .ok []
  | dn :: rest =>
    match resolveEntity d dn with
    | some e => (objectify_members d rest).map fun es => e :: es
    | none => .error ()

/-- Python `members.remove(member)`: delete the first occurrence. -/
def removeFirst : List Entity → Entity → List Entity
  | [], _ => []
  | x :: xs, e => if x = e then xs else x :: removeFirst xs e

/-- Control points of `get_nested_member_users`: `scan ms` is the top of the
`while True` loop (about to recompute `group_in_members`), `pass i ms` is the
second `for` loop with the list iterator about to read index `i` (CPython
list-iterator semantics: the index check is made against the current,
possibly mutated, list). -/
inductive FlatState where
  | scan (ms : List Entity)
  | pass (i : Nat) (ms : List Entity)
deriving DecidableEq, Repr

/-- One fuel-indexed run of `get_nested_member_users` from a control point:
`none` means the fuel ran out with the loop still going, `some (.error ())`
models the `ValueError` raised out of `objectify_members`, `some (.ok ms)`
is the `return members`. -/
def flattenFuel (d : Directory) : Nat → FlatState → Option (Except Unit (List Entity))
  | 0, _ => none
  | n + 1, .scan ms =>
    if ms.any Entity.isGroup then flattenFuel d n (.pass 0 ms)
    else some (.ok ms)
  | n + 1, .pass i ms =>
    match ms.get? i with
    | some (.user _) => flattenFuel d n (.pass (i + 1) ms)
    | some (.group dn gm) =>
      if gm.isEmpty then
        flattenFuel d n (.pass (i + 1) (removeFirst ms (.group dn gm)))
      else
        match objectify_members d gm with
        | .error e => some (.error e)
        | .ok nested =>
          flattenFuel d n (.pass (i + 1) (removeFirst ms (.group dn gm) ++ nested))
    | none => flattenFuel d n (.scan ms)

/-- `LdapDirectory.get_nested_member_users` on an already-objectified member
list, with an explicit fuel bound on the number of executed loop steps. -/
def get_nested_member_users (d : Directory) (fuel : Nat) (members : List Entity) :
    Option (Except Unit (List Entity)) :=
  flattenFuel d fuel (.scan members)

instance {ε α : Type} [DecidableEq ε] [DecidableEq α] : DecidableEq (Except ε α) := fun x y =>
  match x, y with
  | .ok a, .ok b =>
    if h : a = b then isTrue (by rw [h]) else isFalse (by intro hc; cases hc; exact h rfl)
  | .ok _, .error _ => isFalse (by intro hc; cases hc)
  | .error _, .ok _ => isFalse (by intro hc; cases hc)
  | .error e, .error f =>
    if h : e = f then isTrue (by rw [h]) else isFalse (by intro hc; cases hc; exact h rfl)

/-- Heap-level view of a `remove_excluded_users` call: the function only reads
`users` and appends to freshly created lists, so the contents of the caller's
list object after the call are its original contents. -/
def remove_excluded_users_input_after (_p : Policy) (users : List LdapUser) : List LdapUser :=
  users

/-- Heap-level view of a `remove_excluded_groups` call (same shape: it builds
fresh lists and performs no mutating call on its argument). -/
def remove_excluded_groups_input_after (_p : Policy) (groups : List LdapGroup) : List LdapGroup :=
  groups

/-- Heap-level view of a `get_nested_member_users` call: the function mutates
`members` in place (`members.remove`, `members.append`) and `return members`
returns that very object, so on normal return the contents of the caller's
list are exactly the returned list. -/
def get_nested_member_users_input_after (d : Directory) (fuel : Nat)
    (members : List Entity) : Option (List Entity) :=
  match get_nested_member_users d fuel members with
  | some (.ok out) => some out
  | _ => none

/-!  ## Infrastructure for C3: acyclic graphs, reachability, a termination
measure for the flattener  -/

/-- Every membership reference held by a cached group resolves to a cached
group or user (the membership graph is closed, no stale references). -/
def wellFormedB (d : Directory) : Bool :=
  d.groups.all fun p => p.2.all fun m => (resolveEntity d m).isSome

/-- A work-list entity is coherent when a group entity carries exactly the
member list the cache resolves its DN to.  Everything `objectify_members`
produces is coherent. -/
def coherentB (d : Directory) : Entity → Bool
  | .user _ => true
  | .group dn gm => resolveGroup d dn == some gm

/-- `rank` certifies acyclicity of the membership graph: it strictly
decreases along every group-to-group membership edge. -/
def rankOkB (d : Directory) (rank : String → Nat) : Bool :=
  d.groups.all fun p => p.2.all fun m => d.groups.all fun q =>
    !(q.1 == m) || decide (rank m < rank p.1)

/-- Largest member-list length over the cached groups. -/
def maxMembers (d : Directory) : Nat :=
  (d.groups.map fun p => p.2.length).foldr max 0

/-- Termination weight of one work-list entity. -/
def weight (d : Directory) (rank : String → Nat) : Entity → Nat
  | .user _ => 0
  | .group dn _ => (maxMembers d + 1) ^ (rank dn + 1)

/-- Termination measure of a work list. -/
def mu (d : Directory) (rank : String → Nat) (ms : List Entity) : Nat :=
  (ms.map (weight d rank)).sum

/-- `Reach d e u`: the user with DN `u` is a leaf reachable from entity `e`
by following nested group-membership edges through the cache `d`. -/
inductive Reach (d : Directory) : Entity → String → Prop where
  | user (u : String) : Reach d (.user u) u
  | group (dn : String) (gm : List String) (m : String) (e : Entity) (u : String) :
      m ∈ gm → resolveEntity d m = some e → Reach d e u → Reach d (.group dn gm) u

/-- The users reachable from some entity of the work list. -/
def RS (d : Directory) (ms : List Entity) (u : String) : Prop :=
  ∃ e ∈ ms, Reach d e u

theorem find?_mem_and_pred {α : Type} (p : α → Bool) :
    ∀ {l : List α} {a : α}, l.find? p = some a → a ∈ l ∧ p a = true := by
  intro l
  induction l with
  | nil => intro a h; exact Option.noConfusion h
  | cons x xs ih =>
    intro a h
    by_cases hp : p x = true
    · rw [List.find?_cons_of_pos _ hp] at h
      have hxa : x = a := Option.some.inj h
      subst hxa
      exact ⟨List.mem_cons_self _ _, hp⟩
    · rw [List.find?_cons_of_neg _ hp] at h
      obtain ⟨h1, h2⟩ := ih h
      exact ⟨List.mem_cons_of_mem _ h1, h2⟩

theorem resolveGroup_mem {d : Directory} {dn : String} {gm : List String}
    (h : resolveGroup d dn = some gm) : (dn, gm) ∈ d.groups := by
  unfold resolveGroup at h
  cases hf : d.groups.find? (fun p => p.1 == dn) with
  | none => rw [hf] at h; exact Option.noConfusion h
  | some p =>
    rw [hf] at h
    have h : p.2 = gm := Option.some.inj h
    obtain ⟨hmem, hpred⟩ := find?_mem_and_pred _ hf
    have h1 : p.1 = dn := by simpa using hpred
    obtain ⟨a, b⟩ := p
    simp only at h h1
    rw [h1, h] at hmem
    exact hmem

theorem resolveEntity_group_inv {d : Directory} {m dn' : String} {gm' : List String}
    (h : resolveEntity d m = some (.group dn' gm')) :
    dn' = m ∧ resolveGroup d m = some gm' := by
  unfold resolveEntity at h
  cases hr : resolveGroup d m with
  | some ms =>
    rw [hr] at h
    simp only [Option.some.injEq, Entity.group.injEq] at h
    obtain ⟨h1, h2⟩ := h
    refine ⟨h1.symm, ?_⟩
    rw [h2]
  | none =>
    rw [hr] at h
    by_cases hc : d.users.contains m <;> simp [hc] at h

theorem coherent_resolveEntity {d : Directory} {m : String} {e : Entity}
    (h : resolveEntity d m = some e) : coherentB d e = true := by
  cases e with
  | user v => rfl
  | group dn' gm' =>
    obtain ⟨hdn, hrg⟩ := resolveEntity_group_inv h
    subst hdn
    simp [coherentB, hrg]

theorem coherentB_group {d : Directory} {dn : String} {gm : List String}
    (h : coherentB d (.group dn gm) = true) : resolveGroup d dn = some gm := by
  simpa [coherentB] using h

theorem rankOk_spec {d : Directory} {rank : String → Nat}
    (hrk : rankOkB d rank = true) {dn m : String} {gm gm' : List String}
    (hp : (dn, gm) ∈ d.groups) (hm : m ∈ gm) (hq : (m, gm') ∈ d.groups) :
    rank m < rank dn := by
  rw [rankOkB, List.all_eq_true] at hrk
  have h1 := hrk _ hp
  rw [List.all_eq_true] at h1
  have h2 := h1 _ hm
  rw [List.all_eq_true] at h2
  have h3 := h2 _ hq
  simpa using h3

theorem wellFormed_spec {d : Directory} (hwf : wellFormedB d = true)
    {dn m : String} {gm : List String} (hp : (dn, gm) ∈ d.groups) (hm : m ∈ gm) :
    (resolveEntity d m).isSome := by
  rw [wellFormedB, List.all_eq_true] at hwf
  have h1 := hwf _ hp
  rw [List.all_eq_true] at h1
  exact h1 _ hm

theorem objectify_ok_iff (d : Directory) :
    ∀ (dns : List String) (es : List Entity),
      objectify_members d dns = .ok es ↔
        List.Forall₂ (fun dn e => resolveEntity d dn = some e) dns es := by
  intro dns
  induction dns with
  | nil =>
    intro es
    constructor
    · intro h
      cases es with
      | nil => exact List.Forall₂.nil
      | cons e es' => simp [objectify_members] at h
    · intro h
      cases h
      rfl
  | cons dn rest ih =>
    intro es
    constructor
    · intro h
      simp only [objectify_members] at h
      cases hre : resolveEntity d dn with
      | none => rw [hre] at h; simp at h
      | some e =>
        rw [hre] at h
        cases hrest : objectify_members d rest with
        | error u => rw [hrest] at h; simp [Except.map] at h
        | ok es' =>
          rw [hrest] at h
          simp only [Except.map, Except.ok.injEq] at h
          subst h
          exact List.Forall₂.cons hre ((ih es').mp hrest)
    · intro h
      cases h with
      | cons hr ht =>
        rename_i e es'
        simp only [objectify_members, hr]
        rw [(ih es').mpr ht]
        rfl

theorem objectify_ok_of_resolvable (d : Directory) :
    ∀ dns : List String, (∀ dn ∈ dns, (resolveEntity d dn).isSome) →
      ∃ es, objectify_members d dns = .ok es := by
  intro dns
  induction dns with
  | nil => intro _; exact ⟨[], rfl⟩
  | cons dn rest ih =>
    intro h
    obtain ⟨e, he⟩ := Option.isSome_iff_exists.mp (h dn (by simp))
    obtain ⟨es', hes'⟩ := ih fun m hm => h m (by simp [hm])
    refine ⟨e :: es', ?_⟩
    simp only [objectify_members, he, hes']
    rfl

theorem forall₂_mem_right {α β : Type} {R : α → β → Prop} :
    ∀ {as : List α} {bs : List β}, List.Forall₂ R as bs →
      ∀ {b : β}, b ∈ bs → ∃ a ∈ as, R a b := by
  intro as bs h
  induction h with
  | nil => intro b hb; simp at hb
  | cons hr ht ih =>
    intro b hb
    rcases List.mem_cons.mp hb with hb | hb
    · subst hb; exact ⟨_, by simp, hr⟩
    · obtain ⟨a, ha, har⟩ := ih hb
      exact ⟨a, by simp [ha], har⟩

theorem forall₂_resolve_mem {d : Directory} :
    ∀ {dns : List String} {es : List Entity},
      List.Forall₂ (fun dn e => resolveEntity d dn = some e) dns es →
      ∀ {m : String}, m ∈ dns → ∀ {e : Entity}, resolveEntity d m = some e → e ∈ es := by
  intro dns es h
  induction h with
  | nil => intro m hm; simp at hm
  | cons hr ht ih =>
    intro m hm e he
    rcases List.mem_cons.mp hm with hm | hm
    · subst hm
      rw [hr] at he
      injection he with he'
      rw [← he']
      exact List.mem_cons_self _ _
    · exact List.mem_cons_of_mem _ (ih hm he)

theorem mem_of_mem_removeFirst {ms : List Entity} {e x : Entity} :
    x ∈ removeFirst ms e → x ∈ ms := by
  induction ms with
  | nil => intro h; simp [removeFirst] at h
  | cons y ys ih =>
    intro h
    simp only [removeFirst] at h
    split at h
    · exact List.mem_cons_of_mem _ h
    · rcases List.mem_cons.mp h with h | h
      · simp [h]
      · exact List.mem_cons_of_mem _ (ih h)

theorem mem_removeFirst_of_ne {ms : List Entity} {e x : Entity}
    (hx : x ∈ ms) (hne : x ≠ e) : x ∈ removeFirst ms e := by
  induction ms with
  | nil => simp at hx
  | cons y ys ih =>
    simp only [removeFirst]
    split
    · rcases List.mem_cons.mp hx with h | h
      · rename_i hy; exact absurd (h.trans hy) hne
      · exact h
    · rcases List.mem_cons.mp hx with h | h
      · simp [h]
      · exact List.mem_cons_of_mem _ (ih h)

theorem removeFirst_length_of_mem {ms : List Entity} {e : Entity} (h : e ∈ ms) :
    (removeFirst ms e).length + 1 = ms.length := by
  induction ms with
  | nil => simp at h
  | cons y ys ih =>
    simp only [removeFirst]
    split
    · simp
    · rename_i hy
      have : e ∈ ys := by
        rcases List.mem_cons.mp h with h1 | h1
        · exact absurd h1.symm hy
        · exact h1
      simp [ih this]

theorem mu_cons (d : Directory) (rank : String → Nat) (e : Entity) (ms : List Entity) :
    mu d rank (e :: ms) = weight d rank e + mu d rank ms := by
  simp [mu]

theorem mu_append (d : Directory) (rank : String → Nat) (a b : List Entity) :
    mu d rank (a ++ b) = mu d rank a + mu d rank b := by
  simp [mu]

theorem mu_removeFirst_add (d : Directory) (rank : String → Nat) :
    ∀ {ms : List Entity} {e : Entity}, e ∈ ms →
      mu d rank (removeFirst ms e) + weight d rank e = mu d rank ms := by
  intro ms
  induction ms with
  | nil => intro e h; simp at h
  | cons y ys ih =>
    intro e h
    simp only [removeFirst]
    split
    · rename_i hy
      rw [mu_cons, hy, Nat.add_comm]
    · rename_i hy
      have hm : e ∈ ys := by
        rcases List.mem_cons.mp h with h1 | h1
        · exact absurd h1.symm hy
        · exact h1
      rw [mu_cons, mu_cons, Nat.add_assoc, ih hm]

theorem weight_group_pos (d : Directory) (rank : String → Nat) (dn : String)
    (gm : List String) : 0 < weight d rank (.group dn gm) := by
  simp only [weight]
  exact pow_pos (Nat.succ_pos _) _

theorem weight_le_mu (d : Directory) (rank : String → Nat) :
    ∀ {ms : List Entity} {e : Entity}, e ∈ ms → weight d rank e ≤ mu d rank ms := by
  intro ms
  induction ms with
  | nil => intro e h; simp at h
  | cons y ys ih =>
    intro e h
    rw [mu_cons]
    rcases List.mem_cons.mp h with h1 | h1
    · rw [h1]; exact Nat.le_add_right _ _
    · exact le_trans (ih h1) (Nat.le_add_left _ _)

theorem member_length_le_maxMembers (d : Directory) :
    ∀ {p : String × List String}, p ∈ d.groups → p.2.length ≤ maxMembers d := by
  unfold maxMembers
  induction d.groups with
  | nil => intro p h; simp at h
  | cons q qs ih =>
    intro p h
    rcases List.mem_cons.mp h with h1 | h1
    · rw [h1]; exact le_max_left _ _
    · exact le_trans (ih h1) (le_max_right _ _)

theorem mu_le_length_mul (d : Directory) (rank : String → Nat) (X : Nat) :
    ∀ es : List Entity, (∀ e ∈ es, weight d rank e ≤ X) →
      mu d rank es ≤ es.length * X := by
  intro es
  induction es with
  | nil => intro _; simp [mu]
  | cons e rest ih =>
    intro h
    have h1 := ih fun x hx => h x (by simp [hx])
    have he := h e (by simp)
    rw [mu_cons, List.length_cons]
    calc weight d rank e + mu d rank rest ≤ X + rest.length * X :=
          Nat.add_le_add he h1
      _ = (rest.length + 1) * X := by ring

theorem weight_resolved_le (d : Directory) (rank : String → Nat)
    (hrk : rankOkB d rank = true) {dn m : String} {gm : List String} {e : Entity}
    (hg : resolveGroup d dn = some gm) (hm : m ∈ gm)
    (he : resolveEntity d m = some e) :
    weight d rank e ≤ (maxMembers d + 1) ^ rank dn := by
  cases e with
  | user v => simp [weight]
  | group dn' gm' =>
    obtain ⟨hdn, hrg⟩ := resolveEntity_group_inv he
    have hlt : rank dn' < rank dn := by
      rw [hdn]
      exact rankOk_spec hrk (resolveGroup_mem hg) hm (resolveGroup_mem hrg)
    simp only [weight]
    exact Nat.pow_le_pow_right (Nat.succ_pos _) hlt

/-- The expansion of a coherent nonempty (or empty) group strictly shrinks
the measure: the objectified members of a group weigh less than the group. -/
theorem nested_mu_lt (d : Directory) (rank : String → Nat)
    (hrk : rankOkB d rank = true) {dn : String} {gm : List String}
    {nested : List Entity} (hg : resolveGroup d dn = some gm)
    (hobj : objectify_members d gm = .ok nested) :
    mu d rank nested < weight d rank (.group dn gm) := by
  have hf2 := (objectify_ok_iff d gm nested).mp hobj
  have hlen : nested.length = gm.length := hf2.length_eq.symm
  have hbound : ∀ e ∈ nested, weight d rank e ≤ (maxMembers d + 1) ^ rank dn := by
    intro e he
    obtain ⟨m, hm, hre⟩ := forall₂_mem_right hf2 he
    exact weight_resolved_le d rank hrk hg hm hre
  have h1 : mu d rank nested ≤ nested.length * (maxMembers d + 1) ^ rank dn :=
    mu_le_length_mul d rank _ nested hbound
  have h2 : gm.length ≤ maxMembers d := member_length_le_maxMembers d (resolveGroup_mem hg)
  have h3 : nested.length * (maxMembers d + 1) ^ rank dn
      ≤ maxMembers d * (maxMembers d + 1) ^ rank dn := by
    rw [hlen]
    exact Nat.mul_le_mul_right _ h2
  have h4 : maxMembers d * (maxMembers d + 1) ^ rank dn
      < (maxMembers d + 1) * (maxMembers d + 1) ^ rank dn :=
    (Nat.mul_lt_mul_right (pow_pos (Nat.succ_pos _) _)).mpr (Nat.lt_succ_self _)
  have h5 : (maxMembers d + 1) * (maxMembers d + 1) ^ rank dn
      = weight d rank (.group dn gm) := by
    simp only [weight]
    ring
  calc mu d rank nested ≤ nested.length * (maxMembers d + 1) ^ rank dn := h1
    _ ≤ maxMembers d * (maxMembers d + 1) ^ rank dn := h3
    _ < (maxMembers d + 1) * (maxMembers d + 1) ^ rank dn := h4
    _ = weight d rank (.group dn gm) := h5

theorem reach_group_inv {d : Directory} {dn : String} {gm : List String} {u : String}
    (h : Reach d (.group dn gm) u) :
    ∃ m ∈ gm, ∃ e, resolveEntity d m = some e ∧ Reach d e u :=
  match h with
  | .group _ _ m e _ hm hre hr => ⟨m, hm, e, hre, hr⟩

theorem reach_user_inv {d : Directory} {v u : String} (h : Reach d (.user v) u) :
    v = u :=
  match h with
  | .user _ => rfl

/-- Replacing one occurrence of a group by its objectified members preserves
the reachable-user set of the work list. -/
theorem rs_expand {d : Directory} {ms : List Entity} {dn : String}
    {gm : List String} {nested : List Entity}
    (hmem : Entity.group dn gm ∈ ms)
    (hobj : objectify_members d gm = .ok nested) (u : String) :
    RS d (removeFirst ms (.group dn gm) ++ nested) u ↔ RS d ms u := by
  have hf2 := (objectify_ok_iff d gm nested).mp hobj
  constructor
  · rintro ⟨e, he, hr⟩
    rcases List.mem_append.mp he with he | he
    · exact ⟨e, mem_of_mem_removeFirst he, hr⟩
    · obtain ⟨m, hm, hre⟩ := forall₂_mem_right hf2 he
      exact ⟨.group dn gm, hmem, Reach.group dn gm m e u hm hre hr⟩
  · rintro ⟨e, he, hr⟩
    by_cases heq : e = Entity.group dn gm
    · subst heq
      obtain ⟨m, hm, e', hre, hr'⟩ := reach_group_inv hr
      exact ⟨e', List.mem_append.mpr (Or.inr (forall₂_resolve_mem hf2 hm hre)), hr'⟩
    · exact ⟨e, List.mem_append.mpr (Or.inl (mem_removeFirst_of_ne he heq)), hr⟩

/-- Dropping an empty group preserves the reachable-user set. -/
theorem rs_remove_empty {d : Directory} {ms : List Entity} {dn : String} (u : String) :
    RS d (removeFirst ms (.group dn [])) u ↔ RS d ms u := by
  constructor
  · rintro ⟨e, he, hr⟩
    exact ⟨e, mem_of_mem_removeFirst he, hr⟩
  · rintro ⟨e, he, hr⟩
    by_cases heq : e = Entity.group dn []
    · subst heq
      obtain ⟨m, hm, _⟩ := reach_group_inv hr
      simp at hm
    · exact ⟨e, mem_removeFirst_of_ne he heq, hr⟩

theorem no_group_elems {ms : List Entity} (hg : ms.any Entity.isGroup = false) :
    ∀ e ∈ ms, e.isGroup = false := by
  intro e he
  by_contra hc
  simp only [Bool.not_eq_false] at hc
  rw [List.any_eq_false] at hg
  exact hg e he hc

/-- Over a group-free work list, reachability is just membership as a user. -/
theorem rs_users_only {d : Directory} {out : List Entity}
    (hout : ∀ e ∈ out, e.isGroup = false) (u : String) :
    RS d out u ↔ Entity.user u ∈ out := by
  constructor
  · rintro ⟨e, he, hr⟩
    cases e with
    | user v => rw [reach_user_inv hr] at he; exact he
    | group dn gm => have := hout _ he; simp [Entity.isGroup] at this
  · intro h
    exact ⟨.user u, h, Reach.user u⟩

theorem no_group_of_mu_zero (d : Directory) (rank : String → Nat) :
    ∀ {ms : List Entity}, mu d rank ms = 0 → ms.any Entity.isGroup = false := by
  intro ms h
  rw [List.any_eq_false]
  intro e he
  cases e with
  | user v => simp [Entity.isGroup]
  | group dn gm =>
    have h1 := weight_le_mu d rank he
    rw [h] at h1
    have h2 := weight_group_pos d rank dn gm
    omega

theorem flattenFuel_succ_scan (d : Directory) (n : Nat) (ms : List Entity) :
    flattenFuel d (n + 1) (.scan ms)
      = if ms.any Entity.isGroup then flattenFuel d n (.pass 0 ms)
        else some (.ok ms) := rfl

theorem flattenFuel_succ_pass (d : Directory) (n i : Nat) (ms : List Entity) :
    flattenFuel d (n + 1) (.pass i ms)
      = match ms.get? i with
        | some (.user _) => flattenFuel d n (.pass (i + 1) ms)
        | some (.group dn gm) =>
          if gm.isEmpty then
            flattenFuel d n (.pass (i + 1) (removeFirst ms (.group dn gm)))
          else
            match objectify_members d gm with
            | .error e => some (.error e)
            | .ok nested =>
              flattenFuel d n (.pass (i + 1) (removeFirst ms (.group dn gm) ++ nested))
        | none => flattenFuel d n (.scan ms) := rfl

theorem pass_step_none (d : Directory) (n i : Nat) (ms : List Entity)
    (h : ms.get? i = none) :
    flattenFuel d (n + 1) (.pass i ms) = flattenFuel d n (.scan ms) := by
  rw [flattenFuel_succ_pass, h]

theorem pass_step_user (d : Directory) (n i : Nat) (ms : List Entity) (v : String)
    (h : ms.get? i = some (.user v)) :
    flattenFuel d (n + 1) (.pass i ms) = flattenFuel d n (.pass (i + 1) ms) := by
  rw [flattenFuel_succ_pass, h]

theorem pass_step_empty (d : Directory) (n i : Nat) (ms : List Entity) (dn : String)
    (h : ms.get? i = some (.group dn [])) :
    flattenFuel d (n + 1) (.pass i ms)
      = flattenFuel d n (.pass (i + 1) (removeFirst ms (.group dn []))) := by
  rw [flattenFuel_succ_pass, h]
  rfl

theorem pass_step_expand (d : Directory) (n i : Nat) (ms : List Entity)
    (dn : String) (gm : List String) (nested : List Entity)
    (h : ms.get? i = some (.group dn gm)) (hne : gm.isEmpty = false)
    (hobj : objectify_members d gm = .ok nested) :
    flattenFuel d (n + 1) (.pass i ms)
      = flattenFuel d n (.pass (i + 1) (removeFirst ms (.group dn gm) ++ nested)) := by
  rw [flattenFuel_succ_pass, h]
  simp only [hne, Bool.false_eq_true, if_false, hobj]

theorem scan_done (d : Directory) {ms : List Entity}
    (hg : ms.any Entity.isGroup = false) (f : Nat) :
    flattenFuel d (1 + f) (.scan ms) = some (.ok ms) := by
  rw [Nat.add_comm, flattenFuel_succ_scan, hg]
  simp

/-- Running the inner `for` loop from iterator index `i` on a coherent work
list: with some fuel `k` control returns to the top of the `while` loop with
a coherent work list of smaller-or-equal measure — strictly smaller when a
group sits at or after position `i` — and the same reachable-user set. -/
theorem pass_run (d : Directory) (rank : String → Nat)
    (hwf : wellFormedB d = true) (hrk : rankOkB d rank = true) :
    ∀ (M : Nat) (ms : List Entity) (i : Nat),
      mu d rank ms * (maxMembers d + 2) + (ms.length - i) ≤ M →
      (∀ e ∈ ms, coherentB d e = true) →
      ∃ (k : Nat) (ms' : List Entity),
        (∀ e ∈ ms', coherentB d e = true) ∧
        mu d rank ms' ≤ mu d rank ms ∧
        (∀ u, RS d ms' u ↔ RS d ms u) ∧
        ((∃ j, i ≤ j ∧ ∃ e, ms.get? j = some e ∧ e.isGroup = true) →
          mu d rank ms' < mu d rank ms) ∧
        (∀ f, flattenFuel d (k + f) (.pass i ms) = flattenFuel d f (.scan ms')) := by
  intro M
  induction M with
  | zero =>
    intro ms i hb hcoh
    have hle : ms.length ≤ i := by
      generalize mu d rank ms * (maxMembers d + 2) = X at hb
      omega
    have hnone : ms.get? i = none := List.get?_eq_none.mpr hle
    refine ⟨1, ms, hcoh, le_refl _, fun u => Iff.rfl, ?_, ?_⟩
    · rintro ⟨j, hij, e2, hj, _⟩
      rw [List.get?_eq_none.mpr (by omega)] at hj
      exact Option.noConfusion hj
    · intro f
      rw [Nat.add_comm 1 f, pass_step_none d f i ms hnone]
  | succ M ihM =>
    intro ms i hb hcoh
    cases hget : ms.get? i with
    | none =>
      have hle : ms.length ≤ i := List.get?_eq_none.mp hget
      refine ⟨1, ms, hcoh, le_refl _, fun u => Iff.rfl, ?_, ?_⟩
      · rintro ⟨j, hij, e2, hj, _⟩
        rw [List.get?_eq_none.mpr (by omega)] at hj
        exact Option.noConfusion hj
      · intro f
        rw [Nat.add_comm 1 f, pass_step_none d f i ms hget]
    | some e =>
      have hmem : e ∈ ms := List.get?_mem hget
      have hlt : i < ms.length := by
        by_contra hc
        rw [List.get?_eq_none.mpr (by omega)] at hget
        exact Option.noConfusion hget
      cases e with
      | user v =>
        have hb' : mu d rank ms * (maxMembers d + 2) + (ms.length - (i + 1)) ≤ M := by
          generalize mu d rank ms * (maxMembers d + 2) = X at hb ⊢
          omega
        obtain ⟨k', ms', hcoh', hmule, hrs', hstrict', htr'⟩ := ihM ms (i + 1) hb' hcoh
        refine ⟨k' + 1, ms', hcoh', hmule, hrs', ?_, ?_⟩
        · rintro ⟨j, hij, e2, hj, hge⟩
          apply hstrict'
          refine ⟨j, ?_, e2, hj, hge⟩
          rcases Nat.lt_or_ge i j with h | h
          · omega
          · have hji : j = i := by omega
            subst hji
            rw [hget] at hj
            cases hj
            simp [Entity.isGroup] at hge
        · intro f
          have h1 : k' + 1 + f = (k' + f) + 1 := by omega
          rw [h1, pass_step_user d (k' + f) i ms v hget]
          exact htr' f
      | group dn gm =>
        have hrg : resolveGroup d dn = some gm := coherentB_group (hcoh _ hmem)
        by_cases hem : gm.isEmpty = true
        · have hgm : gm = [] := by
            cases gm with
            | nil => rfl
            | cons x xs => simp [List.isEmpty] at hem
          subst hgm
          have hmu1 := mu_removeFirst_add d rank hmem
          have hwpos := weight_group_pos d rank dn ([] : List String)
          have hlen1 := removeFirst_length_of_mem hmem
          have hmullt : mu d rank (removeFirst ms (.group dn [])) * (maxMembers d + 2)
              + (maxMembers d + 2) ≤ mu d rank ms * (maxMembers d + 2) := by
            have h1 : mu d rank (removeFirst ms (.group dn [])) + 1 ≤ mu d rank ms := by
              omega
            calc mu d rank (removeFirst ms (.group dn [])) * (maxMembers d + 2)
                  + (maxMembers d + 2)
                = (mu d rank (removeFirst ms (.group dn [])) + 1) * (maxMembers d + 2) := by
                  ring
              _ ≤ mu d rank ms * (maxMembers d + 2) := Nat.mul_le_mul_right _ h1
          have hb' : mu d rank (removeFirst ms (.group dn [])) * (maxMembers d + 2)
              + ((removeFirst ms (.group dn [])).length - (i + 1)) ≤ M := by
            generalize mu d rank (removeFirst ms (.group dn [])) * (maxMembers d + 2) = X
              at hmullt ⊢
            generalize mu d rank ms * (maxMembers d + 2) = Y at hmullt hb
            omega
          obtain ⟨k', ms', hcoh', hmule, hrs', _, htr'⟩ :=
            ihM (removeFirst ms (.group dn [])) (i + 1) hb'
              fun e he => hcoh e (mem_of_mem_removeFirst he)
          refine ⟨k' + 1, ms', hcoh', by omega, ?_, fun _ => by omega, ?_⟩
          · intro u
            exact (hrs' u).trans (rs_remove_empty u)
          · intro f
            have h1 : k' + 1 + f = (k' + f) + 1 := by omega
            rw [h1, pass_step_empty d (k' + f) i ms dn hget]
            exact htr' f
        · have hem' : gm.isEmpty = false := by
            cases hval : gm.isEmpty with
            | true => exact absurd hval hem
            | false => rfl
          have hres : ∀ m ∈ gm, (resolveEntity d m).isSome := fun m hm =>
            wellFormed_spec hwf (resolveGroup_mem hrg) hm
          obtain ⟨nested, hobj⟩ := objectify_ok_of_resolvable d gm hres
          have hmu1 := mu_removeFirst_add d rank hmem
          have hmun : mu d rank nested < weight d rank (.group dn gm) :=
            nested_mu_lt d rank hrk hrg hobj
          have hmuapp : mu d rank (removeFirst ms (.group dn gm) ++ nested)
              = mu d rank (removeFirst ms (.group dn gm)) + mu d rank nested :=
            mu_append d rank _ _
          have hstep : mu d rank (removeFirst ms (.group dn gm) ++ nested) + 1
              ≤ mu d rank ms := by
            omega
          have hlen1 := removeFirst_length_of_mem hmem
          have hlennest : nested.length = gm.length :=
            ((objectify_ok_iff d gm nested).mp hobj).length_eq.symm
          have hgmlen : gm.length ≤ maxMembers d :=
            member_length_le_maxMembers d (resolveGroup_mem hrg)
          have happlen : (removeFirst ms (.group dn gm) ++ nested).length
              = (removeFirst ms (.group dn gm)).length + nested.length :=
            List.length_append _ _
          have hmullt : mu d rank (removeFirst ms (.group dn gm) ++ nested)
                * (maxMembers d + 2) + (maxMembers d + 2)
              ≤ mu d rank ms * (maxMembers d + 2) := by
            calc mu d rank (removeFirst ms (.group dn gm) ++ nested) * (maxMembers d + 2)
                  + (maxMembers d + 2)
                = (mu d rank (removeFirst ms (.group dn gm) ++ nested) + 1)
                    * (maxMembers d + 2) := by ring
              _ ≤ mu d rank ms * (maxMembers d + 2) := Nat.mul_le_mul_right _ hstep
          have hb' : mu d rank (removeFirst ms (.group dn gm) ++ nested)
                * (maxMembers d + 2)
              + ((removeFirst ms (.group dn gm) ++ nested).length - (i + 1)) ≤ M := by
            generalize mu d rank (removeFirst ms (.group dn gm) ++ nested)
                * (maxMembers d + 2) = X at hmullt ⊢
            generalize mu d rank ms * (maxMembers d + 2) = Y at hmullt hb
            omega
          have hcohT : ∀ e ∈ removeFirst ms (.group dn gm) ++ nested,
              coherentB d e = true := by
            intro e he
            rcases List.mem_append.mp he with he | he
            · exact hcoh e (mem_of_mem_removeFirst he)
            · obtain ⟨m, hm, hre⟩ :=
                forall₂_mem_right ((objectify_ok_iff d gm nested).mp hobj) he
              exact coherent_resolveEntity hre
          obtain ⟨k', ms', hcoh', hmule, hrs', _, htr'⟩ :=
            ihM (removeFirst ms (.group dn gm) ++ nested) (i + 1) hb' hcohT
          refine ⟨k' + 1, ms', hcoh', by omega, ?_, fun _ => by omega, ?_⟩
          · intro u
            exact (hrs' u).trans (rs_expand hmem hobj u)
          · intro f
            have h1 : k' + 1 + f = (k' + f) + 1 := by omega
            rw [h1, pass_step_expand d (k' + f) i ms dn gm nested hget hem' hobj]
            exact htr' f

/-- Iterating the `while` loop on a coherent work list over a well-formed
directory with rank-certified acyclic membership always terminates: some
fuel returns a group-free list with the same reachable-user set, and every
larger fuel returns the same list. -/
theorem scan_run (d : Directory) (rank : String → Nat)
    (hwf : wellFormedB d = true) (hrk : rankOkB d rank = true) :
    ∀ (N : Nat) (ms : List Entity), mu d rank ms ≤ N →
      (∀ e ∈ ms, coherentB d e = true) →
      ∃ (k : Nat) (out : List Entity),
        (∀ e ∈ out, e.isGroup = false) ∧
        (∀ u, RS d out u ↔ RS d ms u) ∧
        (∀ f, flattenFuel d (k + f) (.scan ms) = some (.ok out)) := by
  intro N
  induction N with
  | zero =>
    intro ms hmu _
    have hg : ms.any Entity.isGroup = false :=
      no_group_of_mu_zero d rank (Nat.le_zero.mp hmu)
    exact ⟨1, ms, no_group_elems hg, fun u => Iff.rfl, scan_done d hg⟩
  | succ N ihN =>
    intro ms hmu hcoh
    by_cases hg : ms.any Entity.isGroup = true
    · obtain ⟨e, he, hge⟩ := List.any_eq_true.mp hg
      obtain ⟨j, hj⟩ := List.mem_iff_get?.mp he
      obtain ⟨k₁, ms', hcoh', hmule, hrs', hstrict, htr₁⟩ :=
        pass_run d rank hwf hrk (mu d rank ms * (maxMembers d + 2) + ms.length) ms 0
          (by rw [Nat.sub_zero]) hcoh
      have hlt : mu d rank ms' < mu d rank ms :=
        hstrict ⟨j, Nat.zero_le _, e, hj, hge⟩
      obtain ⟨k₂, out, hng, hrs₂, htr₂⟩ := ihN ms' (by omega) hcoh'
      refine ⟨k₁ + k₂ + 1, out, hng, ?_, ?_⟩
      · intro u
        exact (hrs₂ u).trans (hrs' u)
      · intro f
        have h1 : k₁ + k₂ + 1 + f = (k₁ + (k₂ + f)) + 1 := by omega
        rw [h1]
        have h2 : flattenFuel d ((k₁ + (k₂ + f)) + 1) (.scan ms)
            = flattenFuel d (k₁ + (k₂ + f)) (.pass 0 ms) := by
          simp [flattenFuel_succ_scan, hg]
        rw [h2, htr₁ (k₂ + f), htr₂ f]
    · have hg' : ms.any Entity.isGroup = false := by
        cases hval : ms.any Entity.isGroup with
        | true => exact absurd hval hg
        | false => rfl
      exact ⟨1, ms, no_group_elems hg', fun u => Iff.rfl, scan_done d hg'⟩

/-!  ## Simple evaluations and easy claims  -/

/-- C9: for every directory (resolver) the flattener applied to an empty
member list — which is what a group with no members objectifies to —
terminates at once (any positive fuel) and returns the empty list. -/
theorem c9_empty_members_flatten_empty (d : Directory) (n : Nat) :
    objectify_members d [] = Except.ok [] ∧
    get_nested_member_users d (n + 1) [] = some (Except.ok []) := by
  refine ⟨rfl, ?_⟩
  simp [get_nested_member_users, flattenFuel]

/-- Whenever `flattenFuel` returns normally, no group remains in the output:
the `while` loop only executes `return members` after scanning the whole list
and finding no `LdapGroup`-typed entry. -/
theorem flattenFuel_ok_no_group (d : Directory) :
    ∀ (n : Nat) (st : FlatState) (out : List Entity),
      flattenFuel d n st = some (Except.ok out) → ∀ e ∈ out, e.isGroup = false := by
  intro n
  induction n with
  | zero => intro st out h; simp [flattenFuel] at h
  | succ n ih =>
    intro st out h
    cases st with
    | scan ms =>
      simp only [flattenFuel] at h
      split at h
      · exact ih _ _ h
      · rename_i hg
        simp only [Option.some.injEq, Except.ok.injEq] at h
        subst h
        intro e he
        by_contra hge
        simp only [Bool.not_eq_false] at hge
        exact hg (List.any_eq_true.mpr ⟨e, he, hge⟩)
    | pass i ms =>
      simp only [flattenFuel] at h
      split at h
      · exact ih _ _ h
      · split at h
        · exact ih _ _ h
        · split at h
          · simp at h
          · exact ih _ _ h
      · exact ih _ _ h

/-- C10: whenever `get_nested_member_users` returns (instead of looping or
raising), every element of the returned list is a non-group entity. -/
theorem c10_flatten_output_has_no_groups (d : Directory) (fuel : Nat)
    (ms out : List Entity)
    (h : get_nested_member_users d fuel ms = some (Except.ok out)) :
    ∀ e ∈ out, e.isGroup = false :=
  flattenFuel_ok_no_group d fuel (.scan ms) out h

/-- Witness for C10 at a concrete one-group directory. -/
theorem c10_witness :
    get_nested_member_users ⟨[("G", ["u1"])], ["u1"]⟩ 6 [Entity.group "G" ["u1"]]
        = some (Except.ok [Entity.user "u1"]) ∧
    ∀ e ∈ [Entity.user "u1"], e.isGroup = false :=
  ⟨rfl, c10_flatten_output_has_no_groups ⟨[("G", ["u1"])], ["u1"]⟩ 6
    [Entity.group "G" ["u1"]] [Entity.user "u1"] rfl⟩

/-!  ## C1: the membership cycle A ↔ B  -/

/-- The two-group membership cycle of C1: group `A` lists group `B` as its
only member, group `B` lists group `A`, and there are no users. -/
def cycleDir : Directory := ⟨[("A", ["B"]), ("B", ["A"])], []⟩

/-- The cached object for group `A` in `cycleDir`. -/
def entA : Entity := .group "A" ["B"]

/-- The cached object for group `B` in `cycleDir`. -/
def entB : Entity := .group "B" ["A"]

theorem cyc_step1 (n : Nat) :
    flattenFuel cycleDir (n + 1) (.scan [entB]) = flattenFuel cycleDir n (.pass 0 [entB]) := rfl

theorem cyc_step2 (n : Nat) :
    flattenFuel cycleDir (n + 1) (.pass 0 [entB]) = flattenFuel cycleDir n (.pass 1 [entA]) := rfl

theorem cyc_step3 (n : Nat) :
    flattenFuel cycleDir (n + 1) (.pass 1 [entA]) = flattenFuel cycleDir n (.scan [entA]) := rfl

theorem cyc_step4 (n : Nat) :
    flattenFuel cycleDir (n + 1) (.scan [entA]) = flattenFuel cycleDir n (.pass 0 [entA]) := rfl

theorem cyc_step5 (n : Nat) :
    flattenFuel cycleDir (n + 1) (.pass 0 [entA]) = flattenFuel cycleDir n (.pass 1 [entB]) := rfl

theorem cyc_step6 (n : Nat) :
    flattenFuel cycleDir (n + 1) (.pass 1 [entB]) = flattenFuel cycleDir n (.scan [entB]) := rfl

/-- On the A ↔ B cycle the run revisits the same six control states forever,
so no amount of fuel produces a result. -/
theorem cyc_all_none : ∀ n : Nat,
    flattenFuel cycleDir n (.scan [entB]) = none ∧
    flattenFuel cycleDir n (.pass 0 [entB]) = none ∧
    flattenFuel cycleDir n (.pass 1 [entA]) = none ∧
    flattenFuel cycleDir n (.scan [entA]) = none ∧
    flattenFuel cycleDir n (.pass 0 [entA]) = none ∧
    flattenFuel cycleDir n (.pass 1 [entB]) = none := by
  intro n
  induction n with
  | zero => exact ⟨rfl, rfl, rfl, rfl, rfl, rfl⟩
  | succ n ih =>
    obtain ⟨h1, h2, h3, h4, h5, h6⟩ := ih
    exact ⟨(cyc_step1 n).trans h2, (cyc_step2 n).trans h3, (cyc_step3 n).trans h4,
      (cyc_step4 n).trans h5, (cyc_step5 n).trans h6, (cyc_step6 n).trans h1⟩

/-- C1: on the membership cycle (group A lists B, group B lists A, no users)
`get_nested_member_users` never terminates — the run is still going after
every fuel bound, re-expanding A and B alternately, instead of returning the
empty set as the design requires. -/
theorem c1_cycle_flatten_diverges (n : Nat) :
    get_nested_member_users cycleDir n [Entity.group "B" ["A"]] = none :=
  (cyc_all_none n).1

/-!  ## C4: unresolvable membership reference  -/

/-- Directory of C4: group `G` references DN `X`, which is neither a cached
group nor a cached user (a stale reference). -/
def staleDir : Directory := ⟨[("G", ["X"])], []⟩

/-- C4: on a stale reference the flattener does not skip and count — the
`ValueError` re-raised by `objectify_members` aborts the whole operation
(modelled as `Except.error`), for every sufficient fuel. -/
theorem c4_stale_reference_is_fatal (n : Nat) :
    get_nested_member_users staleDir (n + 2) [Entity.group "G" ["X"]]
      = some (Except.error ()) := rfl

/-!  ## C2: inclusion lists never override identifier exclusion  -/

/-- C2: a user (resp. group) whose identifier is in both the excluded and the
included identifier list is dropped by the filter: `includedUsers` and
`includedGroups` are never consulted by `remove_excluded_users` /
`remove_excluded_groups`, so inclusion does not win and the output is empty
rather than the claimed singleton. -/
theorem c2_included_identifier_does_not_override :
    remove_excluded_users ⟨[], ["x"], [], [], ["x"], []⟩
        [⟨"x", "x", "OU=A", 512⟩] = [] ∧
    remove_excluded_groups ⟨[], [], ["g"], [], [], ["g"]⟩
        [⟨"g", "g", "OU=A"⟩] = [] := by
  exact ⟨rfl, rfl⟩

/-!  ## C5: location exclusion  -/

/-- C5 counterexample.  First conjunct: a group with `parent_ou`
"OU=Students,OU=North" is dropped even though its parent path is in
`includedOrganizationalUnits` (the group filter tests the excluded entry,
not the group's parent path, against the included list), contradicting the
claimed retention.  Second conjunct: a user with `parent_ou`
"OU=North,OU=Students" is dropped although no excluded entry is a prefix of
that path (the code tests substring containment, not prefix), contradicting
the claimed if-and-only-if. -/
theorem c5_counterexample :
    remove_groups_from_excluded_ou
        ⟨["OU=Students"], [], [], ["OU=Students,OU=North"], [], []⟩
        [⟨"g", "g", "OU=Students,OU=North"⟩] = [] ∧
    remove_users_from_excluded_ou
        ⟨["OU=Students"], [], [], [], [], []⟩
        [⟨"u", "u", "OU=North,OU=Students", 512⟩] = [] := by
  exact ⟨rfl, rfl⟩

/-- C5 amended: an object survives the location filter iff it was in the
input and no excluded entry both occurs as a substring of its parent path and
passes the inclusion override — where the override test is
`parent_ou ∉ includedOrganizationalUnits` for users but
`ou ∉ includedOrganizationalUnits` (the excluded entry itself) for groups. -/
theorem c5_amended_location_exclusion_characterization
    (p : Policy) (us : List LdapUser) (gs : List LdapGroup)
    (u : LdapUser) (g : LdapGroup) :
    (u ∈ remove_users_from_excluded_ou p us ↔
      u ∈ us ∧ ¬ ∃ ou ∈ p.excludedOrganizationalUnits,
        strIn ou u.parent_ou = true ∧ u.parent_ou ∉ p.includedOrganizationalUnits) ∧
    (g ∈ remove_groups_from_excluded_ou p gs ↔
      g ∈ gs ∧ ¬ ∃ ou ∈ p.excludedOrganizationalUnits,
        strIn ou g.parent_ou = true ∧ ou ∉ p.includedOrganizationalUnits) := by
  constructor
  · simp [remove_users_from_excluded_ou, user_ou_exclude, List.mem_filter,
      List.any_eq_true, not_exists]
  · simp [remove_groups_from_excluded_ou, group_ou_exclude, List.mem_filter,
      List.any_eq_true, not_exists]

/-!  ## C6: disabled accounts  -/

/-- C6: a user with `userAccountControl = 514` (the code's notion of a
disabled account) is never in the output of `remove_excluded_users`,
whatever the policy contains. -/
theorem c6_disabled_user_never_in_output (p : Policy) (users : List LdapUser)
    (u : LdapUser) (h : u.userAccountControl = 514) :
    u ∉ remove_excluded_users p users := by
  intro hmem
  have h2 : user_id_keep p u = true :=
    List.of_mem_filter (List.mem_of_mem_filter hmem)
  simp [user_id_keep, h] at h2

/-- Witness for C6: a disabled user listed in `includedUsers` is still
excluded. -/
theorem c6_witness :
    (⟨"d", "d", "OU=A", 514⟩ : LdapUser).userAccountControl = 514 ∧
    (⟨"d", "d", "OU=A", 514⟩ : LdapUser) ∉
      remove_excluded_users ⟨[], [], [], [], ["d"], []⟩ [⟨"d", "d", "OU=A", 514⟩] :=
  ⟨rfl, c6_disabled_user_never_in_output _ _ _ rfl⟩

/-!  ## C8: idempotence  -/

theorem filter_swallow {α : Type} (p q : α → Bool) (l : List α) :
    List.filter q (List.filter p l) = List.filter (fun a => p a && q a) l := by
  induction l with
  | nil => rfl
  | cons x xs ih =>
    by_cases hp : p x <;> by_cases hq : q x <;>
      simp [List.filter_cons, hp, hq, ih]

theorem filter_idem {α : Type} (r : α → Bool) (l : List α) :
    List.filter r (List.filter r l) = List.filter r l := by
  induction l with
  | nil => rfl
  | cons x xs ih =>
    by_cases hr : r x <;> simp [List.filter_cons, hr, ih]

/-- C8: both scope filters are idempotent: applying the user filter (resp.
the group filter) twice with the same policy gives the same list as applying
it once. -/
theorem c8_scope_filters_idempotent (p : Policy) (users : List LdapUser)
    (groups : List LdapGroup) :
    remove_excluded_users p (remove_excluded_users p users)
        = remove_excluded_users p users ∧
    remove_excluded_groups p (remove_excluded_groups p groups)
        = remove_excluded_groups p groups := by
  have hU : ∀ l : List LdapUser, remove_excluded_users p l
      = List.filter (fun u => user_id_keep p u && !(user_ou_exclude p u)) l := by
    intro l
    simp only [remove_excluded_users, remove_users_from_excluded_ou]
    exact filter_swallow _ _ l
  have hG : ∀ l : List LdapGroup, remove_excluded_groups p l
      = List.filter (fun g => group_id_keep p g && !(group_ou_exclude p g)) l := by
    intro l
    simp only [remove_excluded_groups, remove_groups_from_excluded_ou]
    exact filter_swallow _ _ l
  constructor
  · simp only [hU]
    exact filter_idem _ _
  · simp only [hG]
    exact filter_idem _ _

/-!  ## C7: purity / input mutation  -/

/-- C7 counterexample: after flattening the one-element list holding an
empty group, the caller's list object contains `[]`, not its original
contents — `get_nested_member_users` mutates its input in place (the
returned list is the same object). -/
theorem c7_counterexample :
    get_nested_member_users_input_after ⟨[], []⟩ 4 [Entity.group "G" []] = some [] ∧
    some [Entity.group "G" []] ≠ some ([] : List Entity) := by
  exact ⟨rfl, by decide⟩

/-- C7 amended: the scope filters leave the contents of their input
collection unchanged (they build fresh output lists), and the flattener
never writes to the directory or to any group's `members` field, but it does
mutate its input member list: there is a run that returns normally with the
input object's final contents differing from the original input. -/
theorem c7_amended_filters_pure_flattener_mutates_input :
    (∀ (p : Policy) (users : List LdapUser),
        remove_excluded_users_input_after p users = users) ∧
    (∀ (p : Policy) (groups : List LdapGroup),
        remove_excluded_groups_input_after p groups = groups) ∧
    (∃ (d : Directory) (fuel : Nat) (ms out : List Entity),
        get_nested_member_users d fuel ms = some (Except.ok out) ∧
        get_nested_member_users_input_after d fuel ms = some out ∧ out ≠ ms) := by
  refine ⟨fun p users => rfl, fun p gs => rfl,
    ⟨⟨[], []⟩, 4, [Entity.group "G" []], [], rfl, rfl, by decide⟩⟩

/-!  ## C3: acyclic correctness and determinism of the flattener  -/

/-- C3: over a well-formed membership snapshot whose acyclicity is certified
by a rank function (`rankOkB`), flattening a coherent objectified member
list terminates; every larger fuel returns the same list (determinism), and
the returned list contains, as a set, exactly the user leaves reachable from
the starting members by following nested group-membership edges. -/
theorem c3_acyclic_flatten_correct (d : Directory) (rank : String → Nat)
    (ms : List Entity) (hwf : wellFormedB d = true) (hrk : rankOkB d rank = true)
    (hcoh : ∀ e ∈ ms, coherentB d e = true) :
    ∃ (n : Nat) (out : List Entity),
      (∀ m, get_nested_member_users d (n + m) ms = some (Except.ok out)) ∧
      (∀ e ∈ out, e.isGroup = false) ∧
      (∀ u, Entity.user u ∈ out ↔ ∃ e ∈ ms, Reach d e u) := by
  obtain ⟨k, out, hng, hrs, htr⟩ :=
    scan_run d rank hwf hrk (mu d rank ms) ms (le_refl _) hcoh
  refine ⟨k, out, fun m => htr m, hng, fun u => ?_⟩
  exact (rs_users_only hng u).symm.trans (hrs u)

/-- Concrete acyclic directory for the C3 witness: group A contains group B
and user u1, group B contains user u2. -/
def acyDir : Directory := ⟨[("A", ["B", "u1"]), ("B", ["u2"])], ["u1", "u2"]⟩

/-- A rank function certifying that `acyDir`'s membership graph is acyclic. -/
def acyRank : String → Nat := fun s => if s = "A" then 1 else 0

/-- Witness for C3 at the concrete two-level directory. -/
theorem c3_witness :
    wellFormedB acyDir = true ∧ rankOkB acyDir acyRank = true ∧
    (∀ e ∈ [Entity.group "A" ["B", "u1"]], coherentB acyDir e = true) ∧
    ∃ (n : Nat) (out : List Entity),
      (∀ m, get_nested_member_users acyDir (n + m) [Entity.group "A" ["B", "u1"]]
        = some (Except.ok out)) ∧
      (∀ e ∈ out, e.isGroup = false) ∧
      (∀ u, Entity.user u ∈ out ↔
        ∃ e ∈ [Entity.group "A" ["B", "u1"]], Reach acyDir e u) :=
  ⟨by decide, by decide, by decide,
    c3_acyclic_flatten_correct acyDir acyRank [Entity.group "A" ["B", "u1"]]
      (by decide) (by decide) (by decide)⟩
